import Mathlib

/-!
Verification of the lazy partitioned-dataframe engine specified by the
repository's design document.  The repository's notebook is tutorial
material driving the engine (dask); the engine itself is not part of the
repository's source tree, so the data model and operations below are
modelled from the specification text (content-addressed task graph,
graph-store with structural sharing, scheduler/executor state machine,
partitioned lazy frames) and the notebook's own pipeline code is embedded
directly where a claim cites it.
-/

set_option maxHeartbeats 1000000

/-- Modelled from the spec: a TaskKey is a deterministic content-derived
identifier computed from (operation name, ordered argument keys, literal
parameters).  We model the content address as the canonical content tree
itself: literal arguments participate by value, task arguments by their
own content key, so two keys are equal exactly when the canonicalized
(op, args) tuples are equal. -/
inductive TaskKey where
  | lit : Int → TaskKey
  | node : String → List TaskKey → TaskKey

mutual

def TaskKey.decEq : (a b : TaskKey) → Decidable (a = b)
  | .lit m, .lit n =>
    match Int.decEq m n with
    | isTrue h => isTrue (by rw [h])
    | isFalse h => isFalse (fun c => by cases c; exact h rfl)
  | .lit _, .node _ _ => isFalse (fun c => by cases c)
  | .node _ _, .lit _ => isFalse (fun c => by cases c)
  | .node o1 a1, .node o2 a2 =>
    match String.decEq o1 o2 with
    | isFalse h => isFalse (fun c => by cases c; exact h rfl)
    | isTrue h =>
      match TaskKey.decEqList a1 a2 with
      | isTrue h2 => isTrue (by rw [h, h2])
      | isFalse h2 => isFalse (fun c => by cases c; exact h2 rfl)

def TaskKey.decEqList : (as bs : List TaskKey) → Decidable (as = bs)
  | [], [] => isTrue rfl
  | [], _ :: _ => isFalse (fun c => by cases c)
  | _ :: _, [] => isFalse (fun c => by cases c)
  | a :: as, b :: bs =>
    match TaskKey.decEq a b with
    | isFalse h => isFalse (fun c => by cases c; exact h rfl)
    | isTrue h =>
      match TaskKey.decEqList as bs with
      | isTrue h2 => isTrue (by rw [h, h2])
      | isFalse h2 => isFalse (fun c => by cases c; exact h2 rfl)

end

instance : DecidableEq TaskKey := TaskKey.decEq

/-- Modelled from the spec: a TaskNode is an operation descriptor together
with the ordered argument list (literals or references to other nodes by
content key). -/
structure TaskNode where
  op : String
  args : List TaskKey
deriving DecidableEq

/-- Modelled from the spec: the graph store is a mapping from TaskKey to
TaskNode, holding each node once per unique key. -/
structure GraphStore where
  nodes : List (TaskKey × TaskNode)
deriving DecidableEq

/-- Modelled from the spec: the content key of a canonicalized (op, args)
tuple.  It is a pure function of the operation and the ordered arguments
only: no graph state, node identity or creation time participates. -/
def keyOf (op : String) (args : List TaskKey) : TaskKey :=
  .node op args

/-- Modelled from the spec: `addTask (op, args)` computes the content key
of the canonicalized (op, args) tuple; if a node with that key already
exists in the graph store it returns the existing key without inserting a
duplicate, otherwise it inserts one new node under that key. -/
def addTask (g : GraphStore) (op : String) (args : List TaskKey) :
    TaskKey × GraphStore :=
  let k := keyOf op args
  if (g.nodes.lookup k).isSome then (k, g)
  else (k, ⟨(k, ⟨op, args⟩) :: g.nodes⟩)

theorem addTask_key (g : GraphStore) (op : String) (args : List TaskKey) :
    (addTask g op args).1 = keyOf op args := by
  unfold addTask
  by_cases h : (g.nodes.lookup (keyOf op args)).isSome <;> simp [h]

theorem addTask_lookup_isSome (g : GraphStore) (op : String)
    (args : List TaskKey) :
    (((addTask g op args).2).nodes.lookup (keyOf op args)).isSome := by
  unfold addTask
  by_cases h : (g.nodes.lookup (keyOf op args)).isSome <;>
    simp [h, List.lookup]

theorem addTask_of_isSome (g : GraphStore) (op : String)
    (args : List TaskKey) (h : (g.nodes.lookup (keyOf op args)).isSome) :
    addTask g op args = (keyOf op args, g) := by
  unfold addTask
  simp [h]

theorem addTask_idem (g : GraphStore) (op : String) (args : List TaskKey) :
    addTask (addTask g op args).2 op args =
      ((addTask g op args).1, (addTask g op args).2) := by
  rw [addTask_of_isSome _ op args (addTask_lookup_isSome g op args),
    addTask_key]

/-- C3: for every operation descriptor and argument list, calling addTask
twice returns the same TaskKey both times, the second call inserts no new
node into the graph store, and the TaskKey is a pure order-sensitive
function of (op, args) only — identical across any graph state (hence any
LazyFrame lineage and any interleaving with other addTask calls), never
derived from node identity or creation time. -/
theorem addTask_deterministic_and_shared (op : String)
    (args : List TaskKey) (g g2 : GraphStore) :
    (addTask (addTask g op args).2 op args).1 = (addTask g op args).1 ∧
    (addTask (addTask g op args).2 op args).2.nodes =
      (addTask g op args).2.nodes ∧
    (addTask g op args).1 = (addTask g2 op args).1 ∧
    (addTask g op args).1 = keyOf op args := by
  refine ⟨?_, ?_, ?_, addTask_key g op args⟩
  · rw [addTask_idem]
  · rw [addTask_idem]
  · rw [addTask_key, addTask_key]

mutual

/-- Modelled from the spec: the set of TaskNodes reachable from a terminal
key, the terminal itself included; a node's dependencies are its argument
keys. -/
def TaskKey.reach : TaskKey → List TaskKey
  | .lit n => [.lit n]
  | .node op args => .node op args :: TaskKey.reachList args

/-- Modelled from the spec: the structural union (with multiplicity) of
the nodes reachable from a list of keys. -/
def TaskKey.reachList : List TaskKey → List TaskKey
  | [] => []
  | a :: as => a.reach ++ TaskKey.reachList as

end

theorem TaskKey.myInduction {motive : TaskKey → Prop}
    (hlit : ∀ n, motive (.lit n))
    (hnode : ∀ op args, (∀ a ∈ args, motive a) → motive (.node op args)) :
    ∀ t, motive t
  | .lit n => hlit n
  | .node op args => hnode op args (fun a ha =>
      have := List.sizeOf_lt_of_mem ha
      TaskKey.myInduction hlit hnode a)

theorem TaskKey.mem_reachList {k : TaskKey} :
    ∀ {as : List TaskKey}, k ∈ TaskKey.reachList as ↔ ∃ a ∈ as, k ∈ a.reach := by
  intro as
  induction as with
  | nil => simp [TaskKey.reachList]
  | cons a as ih => simp [TaskKey.reachList, ih]

theorem TaskKey.reach_subset_reachList {a : TaskKey} {as : List TaskKey}
    (ha : a ∈ as) : a.reach ⊆ TaskKey.reachList as := fun _ hx =>
  TaskKey.mem_reachList.mpr ⟨a, ha, hx⟩

theorem TaskKey.self_mem_reach (t : TaskKey) : t ∈ t.reach := by
  cases t <;> simp [TaskKey.reach]

theorem TaskKey.reach_subset :
    ∀ (t k : TaskKey), k ∈ t.reach → k.reach ⊆ t.reach := by
  intro t
  induction t using TaskKey.myInduction with
  | hlit n =>
    intro k hk
    simp [TaskKey.reach] at hk
    subst hk
    exact fun x hx => hx
  | hnode op args ih =>
    intro k hk
    rw [TaskKey.reach, List.mem_cons] at hk
    rcases hk with hk | hk
    · subst hk; exact fun x hx => hx
    · obtain ⟨a, ha, hka⟩ := TaskKey.mem_reachList.mp hk
      intro x hx
      have hxa : x ∈ a.reach := ih a ha k hka hx
      rw [TaskKey.reach]
      exact List.mem_cons_of_mem _ (TaskKey.reach_subset_reachList ha hxa)

/-- Modelled from the spec: `merge (requests) -> MergedGraph` is the
structural union of the reachable node sets of all requested terminals,
with content-equal nodes collapsed into one shared node. -/
def mergeRequests (ts : List TaskKey) : List TaskKey :=
  (TaskKey.reachList ts).dedup

/-- Modelled from the spec: the executor of one compute call runs each
node of the merged graph exactly once; the schedule therefore lists each
merged node a single time. -/
def executionSchedule (ts : List TaskKey) : List TaskKey :=
  mergeRequests ts

theorem mem_mergeRequests {k : TaskKey} {ts : List TaskKey} :
    k ∈ mergeRequests ts ↔ ∃ t ∈ ts, k ∈ t.reach := by
  rw [mergeRequests, List.mem_dedup]
  exact TaskKey.mem_reachList

/-- C1: submitting several terminals in one compute call, every TaskNode
reachable from two distinct requested terminals occurs exactly once in the
execution schedule of that call (executed exactly once), and for any
shared prefix (a node reachable from both terminals) the merged graph's
node count over that prefix equals the node count of building the prefix
once. -/
theorem merged_graph_shares_common_work (ts : List TaskKey)
    (t1 t2 k p : TaskKey) (hne : t1 ≠ t2) (h1 : t1 ∈ ts) (h2 : t2 ∈ ts)
    (hk1 : k ∈ t1.reach) (hk2 : k ∈ t2.reach)
    (hp1 : p ∈ t1.reach) (hp2 : p ∈ t2.reach) :
    (executionSchedule ts).count k = 1 ∧
    ((mergeRequests ts).filter (fun x => decide (x ∈ p.reach))).length =
      p.reach.dedup.length := by
  constructor
  · have hmem : k ∈ mergeRequests ts := mem_mergeRequests.mpr ⟨t1, h1, hk1⟩
    have hnd : (mergeRequests ts).Nodup := (TaskKey.reachList ts).nodup_dedup
    exact List.count_eq_one_of_mem hnd hmem
  · have hnd : (mergeRequests ts).Nodup := (TaskKey.reachList ts).nodup_dedup
    have hndf := hnd.filter (fun x => decide (x ∈ p.reach))
    have hset : ((mergeRequests ts).filter
        (fun x => decide (x ∈ p.reach))).toFinset = p.reach.toFinset := by
      ext x
      simp only [List.mem_toFinset, List.mem_filter, decide_eq_true_eq]
      constructor
      · exact fun h => h.2
      · intro hx
        refine ⟨mem_mergeRequests.mpr ⟨t1, h1, ?_⟩, hx⟩
        exact TaskKey.reach_subset t1 p hp1 hx
    have h1l := List.toFinset_card_of_nodup hndf
    have h2l := List.toFinset_card_of_nodup p.reach.nodup_dedup
    have h3l : p.reach.dedup.toFinset = p.reach.toFinset := by
      ext x; simp
    rw [h3l] at h2l
    rw [hset] at h1l
    omega

theorem merged_graph_shares_common_work_witness :
    ((TaskKey.node "sum" [.node "read" [.lit 0]]) ≠
        (TaskKey.node "count" [.node "read" [.lit 0]]) ∧
      (TaskKey.node "read" [.lit 0]) ∈
        (TaskKey.node "sum" [.node "read" [.lit 0]]).reach ∧
      (TaskKey.node "read" [.lit 0]) ∈
        (TaskKey.node "count" [.node "read" [.lit 0]]).reach) ∧
    (executionSchedule [.node "sum" [.node "read" [.lit 0]],
        .node "count" [.node "read" [.lit 0]]]).count
      (.node "read" [.lit 0]) = 1 ∧
    ((mergeRequests [.node "sum" [.node "read" [.lit 0]],
        .node "count" [.node "read" [.lit 0]]]).filter
      (fun x => decide (x ∈ (TaskKey.node "read" [.lit 0]).reach))).length =
      (TaskKey.node "read" [.lit 0]).reach.dedup.length :=
  ⟨⟨by decide, by decide, by decide⟩,
    merged_graph_shares_common_work
      [.node "sum" [.node "read" [.lit 0]], .node "count" [.node "read" [.lit 0]]]
      (.node "sum" [.node "read" [.lit 0]]) (.node "count" [.node "read" [.lit 0]])
      (.node "read" [.lit 0]) (.node "read" [.lit 0])
      (by decide) (by decide) (by decide) (by decide) (by decide)
      (by decide) (by decide)⟩

/-- Modelled from the spec: the declared dependencies of a task are its
argument keys. -/
def TaskKey.deps : TaskKey → List TaskKey
  | .lit _ => []
  | .node _ args => args

theorem TaskKey.mem_reach_iff {k a : TaskKey} :
    k ∈ a.reach ↔ k = a ∨ k ∈ TaskKey.reachList a.deps := by
  cases a <;> simp [TaskKey.reach, TaskKey.deps, TaskKey.reachList]

/-- Modelled from the spec: the per-task state machine
Pending, Ready, Running, Done, Failed. -/
inductive TaskStatus where
  | pending
  | ready
  | running
  | done
  | failed
deriving DecidableEq

/-- Modelled from the spec: the executor's mutable state over one compute
call: the status of every task and the list of materialized partition
results currently resident (not yet evicted). -/
structure ExecState where
  status : TaskKey → TaskStatus
  resident : List TaskKey

/-- Modelled from the spec: the executor's initial state — every task
Pending, nothing materialized. -/
def initExec : ExecState :=
  ⟨fun _ => .pending, []⟩

/-- Modelled from the spec: a materialized dependency result is kept
resident exactly while its dependency reference count is positive (some
dependent in the graph has not yet completed) or it belongs to the final
requested terminal set; otherwise it is evicted. -/
def needsKept (g ts : List TaskKey) (st : TaskKey → TaskStatus)
    (d : TaskKey) : Bool :=
  decide (d ∈ ts) || g.any (fun t => decide (d ∈ t.deps) &&
    decide (st t ≠ .done))

/-- Modelled from the spec: one scheduling event of the executor of a
merged graph `g` with requested terminal set `ts`, where `failing` tells
which task bodies raise when run.  A task becomes Ready only when all its
declared dependencies are Done; a Ready task may be dispatched by any
worker; a Running task completes into Done (materializing its result and
evicting every dependency whose reference count reached zero and which is
not a requested terminal) or into Failed; a Failed task marks each of its
not-yet-started dependents Failed without running it. -/
inductive ExecStep (g ts : List TaskKey) (failing : TaskKey → Bool) :
    ExecState → ExecState → Prop where
  | toReady (s : ExecState) (k : TaskKey) (hg : k ∈ g)
      (hst : s.status k = .pending)
      (hdeps : ∀ d ∈ k.deps, s.status d = .done) :
      ExecStep g ts failing s ⟨Function.update s.status k .ready, s.resident⟩
  | dispatch (s : ExecState) (k : TaskKey) (hg : k ∈ g)
      (hst : s.status k = .ready) :
      ExecStep g ts failing s ⟨Function.update s.status k .running, s.resident⟩
  | complete (s : ExecState) (k : TaskKey) (hg : k ∈ g)
      (hst : s.status k = .running) (hok : failing k = false) :
      ExecStep g ts failing s
        ⟨Function.update s.status k .done,
         (k :: s.resident).filter
           (needsKept g ts (Function.update s.status k .done))⟩
  | fail (s : ExecState) (k : TaskKey) (hg : k ∈ g)
      (hst : s.status k = .running) (hbad : failing k = true) :
      ExecStep g ts failing s ⟨Function.update s.status k .failed, s.resident⟩
  | propagate (s : ExecState) (k d : TaskKey) (hg : k ∈ g) (hd : d ∈ g)
      (hst : s.status k = .failed) (hdep : k ∈ d.deps)
      (hnotrun : s.status d = .pending ∨ s.status d = .ready) :
      ExecStep g ts failing s ⟨Function.update s.status d .failed, s.resident⟩

/-- Modelled from the spec: the states the executor can reach during one
compute call, starting from the all-Pending initial state. -/
def ExecReach (g ts : List TaskKey) (failing : TaskKey → Bool)
    (s : ExecState) : Prop :=
  Relation.ReflTransGen (ExecStep g ts failing) initExec s

/-- The master executor invariant: dependency order is respected by every
Ready, Running or Done task; a failing task body is never Done; the
resident list is duplicate-free; every resident result is a Done graph
node that is a requested terminal or still has an uncompleted dependent;
and only graph nodes ever leave Pending. -/
def ExecInv (g ts : List TaskKey) (failing : TaskKey → Bool)
    (s : ExecState) : Prop :=
  (∀ k, (s.status k = .ready ∨ s.status k = .running ∨ s.status k = .done) →
      ∀ d ∈ k.deps, s.status d = .done) ∧
  (∀ k, failing k = true → s.status k ≠ .done) ∧
  s.resident.Nodup ∧
  (∀ d ∈ s.resident, d ∈ g ∧ s.status d = .done ∧
      (d ∈ ts ∨ ∃ t ∈ g, d ∈ t.deps ∧ s.status t ≠ .done)) ∧
  (∀ k, s.status k ≠ .pending → k ∈ g)

theorem execInv_init (g ts : List TaskKey) (failing : TaskKey → Bool) :
    ExecInv g ts failing initExec := by
  refine ⟨?_, ?_, ?_, ?_, ?_⟩ <;> simp [initExec]

theorem execStep_done_stable {g ts : List TaskKey} {failing : TaskKey → Bool}
    {s s2 : ExecState} (h : ExecStep g ts failing s s2) (k : TaskKey)
    (hk : s.status k = .done) : s2.status k = .done := by
  cases h with
  | toReady k0 hg hst hdeps =>
    by_cases he : k = k0
    · subst he; rw [hk] at hst; cases hst
    · simpa [Function.update_noteq he]
  | dispatch k0 hg hst =>
    by_cases he : k = k0
    · subst he; rw [hk] at hst; cases hst
    · simpa [Function.update_noteq he]
  | complete k0 hg hst hok =>
    by_cases he : k = k0
    · subst he; simp
    · simpa [Function.update_noteq he]
  | fail k0 hg hst hbad =>
    by_cases he : k = k0
    · subst he; rw [hk] at hst; cases hst
    · simpa [Function.update_noteq he]
  | propagate k0 d hg hd hst hdep hnotrun =>
    by_cases he : k = d
    · subst he
      rcases hnotrun with h1 | h1 <;> (rw [hk] at h1; cases h1)
    · simpa [Function.update_noteq he]

theorem update_ne_done {st : TaskKey → TaskStatus} {k0 : TaskKey}
    {v : TaskStatus} (hv : v ≠ .done) (t : TaskKey) (h : st t ≠ .done) :
    Function.update st k0 v t ≠ .done := by
  by_cases he : t = k0
  · subst he; simpa
  · simpa [Function.update_noteq he]

theorem execInv_step {g ts : List TaskKey} {failing : TaskKey → Bool}
    {s s2 : ExecState} (hinv : ExecInv g ts failing s)
    (h : ExecStep g ts failing s s2) : ExecInv g ts failing s2 := by
  obtain ⟨hdep, hfail, hnd, hres, hing⟩ := hinv
  cases h with
  | toReady k0 hg hst hdeps0 =>
    refine ⟨?_, ?_, hnd, ?_, ?_⟩
    · intro k hk d hd
      have hdold : s.status d = .done := by
        by_cases he : k = k0
        · subst he; exact hdeps0 d hd
        · rw [show (⟨Function.update s.status k0 .ready, s.resident⟩ :
              ExecState).status k = s.status k from Function.update_noteq he _ _] at hk
          exact hdep k hk d hd
      have hne : d ≠ k0 := fun hc => by rw [hc, hst] at hdold; cases hdold
      simpa [Function.update_noteq hne]
    · intro k hf
      by_cases he : k = k0
      · subst he; simp
      · have := hfail k hf
        simpa [Function.update_noteq he]
    · intro d hdm
      obtain ⟨hdg, hdone, hneed⟩ := hres d hdm
      have hne : d ≠ k0 := fun hc => by rw [hc, hst] at hdone; cases hdone
      refine ⟨hdg, by simpa [Function.update_noteq hne], ?_⟩
      rcases hneed with hts | ⟨t, htg, htd, htnd⟩
      · exact Or.inl hts
      · exact Or.inr ⟨t, htg, htd, update_ne_done (by simp) t htnd⟩
    · intro k hk
      by_cases he : k = k0
      · subst he; exact hg
      · rw [show (⟨Function.update s.status k0 .ready, s.resident⟩ :
            ExecState).status k = s.status k from Function.update_noteq he _ _] at hk
        exact hing k hk
  | dispatch k0 hg hst =>
    refine ⟨?_, ?_, hnd, ?_, ?_⟩
    · intro k hk d hd
      have hdold : s.status d = .done := by
        by_cases he : k = k0
        · subst he; exact hdep k (Or.inl hst) d hd
        · rw [show (⟨Function.update s.status k0 .running, s.resident⟩ :
              ExecState).status k = s.status k from Function.update_noteq he _ _] at hk
          exact hdep k hk d hd
      have hne : d ≠ k0 := fun hc => by rw [hc, hst] at hdold; cases hdold
      simpa [Function.update_noteq hne]
    · intro k hf
      by_cases he : k = k0
      · subst he; simp
      · have := hfail k hf
        simpa [Function.update_noteq he]
    · intro d hdm
      obtain ⟨hdg, hdone, hneed⟩ := hres d hdm
      have hne : d ≠ k0 := fun hc => by rw [hc, hst] at hdone; cases hdone
      refine ⟨hdg, by simpa [Function.update_noteq hne], ?_⟩
      rcases hneed with hts | ⟨t, htg, htd, htnd⟩
      · exact Or.inl hts
      · exact Or.inr ⟨t, htg, htd, update_ne_done (by simp) t htnd⟩
    · intro k hk
      by_cases he : k = k0
      · subst he; exact hg
      · rw [show (⟨Function.update s.status k0 .running, s.resident⟩ :
            ExecState).status k = s.status k from Function.update_noteq he _ _] at hk
        exact hing k hk
  | fail k0 hg hst hbad =>
    refine ⟨?_, ?_, hnd, ?_, ?_⟩
    · intro k hk d hd
      have hkold : s.status k = .ready ∨ s.status k = .running ∨
          s.status k = .done := by
        by_cases he : k = k0
        · subst he; exact Or.inr (Or.inl hst)
        · rwa [show (⟨Function.update s.status k0 .failed, s.resident⟩ :
            ExecState).status k = s.status k from Function.update_noteq he _ _] at hk
      by_cases he : k = k0
      · subst he
        rw [show (⟨Function.update s.status k .failed, s.resident⟩ :
          ExecState).status k = .failed from Function.update_same _ _ _] at hk
        cases hk with
        | inl h1 => cases h1
        | inr h1 => cases h1 with
          | inl h2 => cases h2
          | inr h2 => cases h2
      · have hdold := hdep k hkold d hd
        have hne : d ≠ k0 := fun hc => by rw [hc, hst] at hdold; cases hdold
        simpa [Function.update_noteq hne]
    · intro k hf
      by_cases he : k = k0
      · subst he; simp
      · have := hfail k hf
        simpa [Function.update_noteq he]
    · intro d hdm
      obtain ⟨hdg, hdone, hneed⟩ := hres d hdm
      have hne : d ≠ k0 := fun hc => by rw [hc, hst] at hdone; cases hdone
      refine ⟨hdg, by simpa [Function.update_noteq hne], ?_⟩
      rcases hneed with hts | ⟨t, htg, htd, htnd⟩
      · exact Or.inl hts
      · exact Or.inr ⟨t, htg, htd, update_ne_done (by simp) t htnd⟩
    · intro k hk
      by_cases he : k = k0
      · subst he; exact hg
      · rw [show (⟨Function.update s.status k0 .failed, s.resident⟩ :
            ExecState).status k = s.status k from Function.update_noteq he _ _] at hk
        exact hing k hk
  | propagate k0 d0 hg hd0 hst hdp hnotrun =>
    refine ⟨?_, ?_, hnd, ?_, ?_⟩
    · intro k hk d hd
      have hkne : k ≠ d0 := by
        intro hc
        subst hc
        rw [show (⟨Function.update s.status k TaskStatus.failed, s.resident⟩ :
          ExecState).status k = .failed from Function.update_same _ _ _] at hk
        cases hk with
        | inl h1 => cases h1
        | inr h1 => cases h1 with
          | inl h2 => cases h2
          | inr h2 => cases h2
      rw [show (⟨Function.update s.status d0 .failed, s.resident⟩ :
        ExecState).status k = s.status k from Function.update_noteq hkne _ _] at hk
      have hdold := hdep k hk d hd
      have hne : d ≠ d0 := by
        intro hc
        subst hc
        rcases hnotrun with h1 | h1 <;> (rw [hdold] at h1; cases h1)
      simpa [Function.update_noteq hne]
    · intro k hf
      by_cases he : k = d0
      · subst he; simp
      · have := hfail k hf
        simpa [Function.update_noteq he]
    · intro d hdm
      obtain ⟨hdg, hdone, hneed⟩ := hres d hdm
      have hne : d ≠ d0 := by
        intro hc
        subst hc
        rcases hnotrun with h1 | h1 <;> (rw [hdone] at h1; cases h1)
      refine ⟨hdg, by simpa [Function.update_noteq hne], ?_⟩
      rcases hneed with hts | ⟨t, htg, htd, htnd⟩
      · exact Or.inl hts
      · exact Or.inr ⟨t, htg, htd, update_ne_done (by simp) t htnd⟩
    · intro k hk
      by_cases he : k = d0
      · subst he; exact hd0
      · rw [show (⟨Function.update s.status d0 .failed, s.resident⟩ :
            ExecState).status k = s.status k from Function.update_noteq he _ _] at hk
        exact hing k hk
  | complete k0 hg hst hok =>
    have hnotres : k0 ∉ s.resident := by
      intro hc
      obtain ⟨_, hdone, _⟩ := hres k0 hc
      rw [hst] at hdone
      cases hdone
    refine ⟨?_, ?_, ?_, ?_, ?_⟩
    · intro k hk d hd
      have hdold : s.status d = .done ∨ d = k0 := by
        by_cases he : k = k0
        · subst he; exact Or.inl (hdep k (Or.inr (Or.inl hst)) d hd)
        · rw [show (⟨Function.update s.status k0 .done, _⟩ :
              ExecState).status k = s.status k from Function.update_noteq he _ _] at hk
          exact Or.inl (hdep k hk d hd)
      rcases hdold with hdold | hdold
      · by_cases he : d = k0
        · subst he; simp
        · simpa [Function.update_noteq he]
      · subst hdold; simp
    · intro k hf
      by_cases he : k = k0
      · subst he; rw [hf] at hok; cases hok
      · have := hfail k hf
        simpa [Function.update_noteq he]
    · exact (List.nodup_cons.mpr ⟨hnotres, hnd⟩).filter _
    · intro d hdm
      have hdm2 := List.mem_filter.mp hdm
      obtain ⟨hdmem, hkeep⟩ := hdm2
      have hneed : d ∈ ts ∨ ∃ t ∈ g, d ∈ t.deps ∧
          Function.update s.status k0 .done t ≠ .done := by
        rw [needsKept] at hkeep
        simp only [Bool.or_eq_true, List.any_eq_true, Bool.and_eq_true,
          decide_eq_true_eq] at hkeep
        rcases hkeep with hts | ⟨t, htg, htd, htnd⟩
        · exact Or.inl hts
        · exact Or.inr ⟨t, htg, htd, htnd⟩
      have hdg : d ∈ g := by
        rcases List.mem_cons.mp hdmem with he | hmem
        · subst he; exact hg
        · exact (hres d hmem).1
      refine ⟨hdg, ?_, hneed⟩
      rcases List.mem_cons.mp hdmem with he | hmem
      · subst he; simp
      · have hdone := (hres d hmem).2.1
        by_cases he : d = k0
        · subst he; simp
        · simpa [Function.update_noteq he]
    · intro k hk
      by_cases he : k = k0
      · subst he; exact hg
      · rw [show (⟨Function.update s.status k0 .done, _⟩ :
            ExecState).status k = s.status k from Function.update_noteq he _ _] at hk
        exact hing k hk

theorem execInv_reach {g ts : List TaskKey} {failing : TaskKey → Bool}
    {s : ExecState} (h : ExecReach g ts failing s) :
    ExecInv g ts failing s := by
  induction h with
  | refl => exact execInv_init g ts failing
  | tail hsteps hstep ih => exact execInv_step ih hstep

/-- C9: in every execution of the scheduler's step relation a task is
never Running or Done unless every one of its declared dependencies is
Done (no dispatch before all dependencies completed successfully), and a
single step moves a task's status only along the state machine
Pending to Ready (entered exactly when all dependencies are Done), Ready
to Running, Running to Done or Failed, with the additional Failed-
propagation edge of the spec's failure semantics taking a not-yet-started
task (Pending or Ready) to Failed only when one of its dependencies is
Failed. -/
theorem scheduler_respects_dependency_order (g ts : List TaskKey)
    (failing : TaskKey → Bool) (s s2 : ExecState)
    (hreach : ExecReach g ts failing s)
    (hstep : ExecStep g ts failing s s2) :
    (∀ k, s.status k = .running ∨ s.status k = .done →
        ∀ d ∈ k.deps, s.status d = .done) ∧
    (∀ k, s2.status k ≠ s.status k →
      (s.status k = .pending ∧ s2.status k = .ready ∧
          ∀ d ∈ k.deps, s.status d = .done) ∨
      (s.status k = .ready ∧ s2.status k = .running) ∨
      (s.status k = .running ∧
          (s2.status k = .done ∨ s2.status k = .failed)) ∨
      ((s.status k = .pending ∨ s.status k = .ready) ∧
          s2.status k = .failed ∧ ∃ d ∈ k.deps, s.status d = .failed)) := by
  obtain ⟨hdep, hfail, hnd, hres, hing⟩ := execInv_reach hreach
  constructor
  · intro k hk
    exact hdep k (Or.inr hk)
  · intro k hk
    cases hstep with
    | toReady k0 hg hst hdeps0 =>
      by_cases he : k = k0
      · subst he
        exact Or.inl ⟨hst, Function.update_same _ _ _, hdeps0⟩
      · exact absurd (Function.update_noteq he _ _) hk
    | dispatch k0 hg hst =>
      by_cases he : k = k0
      · subst he
        exact Or.inr (Or.inl ⟨hst, Function.update_same _ _ _⟩)
      · exact absurd (Function.update_noteq he _ _) hk
    | complete k0 hg hst hok =>
      by_cases he : k = k0
      · subst he
        exact Or.inr (Or.inr (Or.inl
          ⟨hst, Or.inl (Function.update_same _ _ _)⟩))
      · exact absurd (Function.update_noteq he _ _) hk
    | fail k0 hg hst hbad =>
      by_cases he : k = k0
      · subst he
        exact Or.inr (Or.inr (Or.inl
          ⟨hst, Or.inr (Function.update_same _ _ _)⟩))
      · exact absurd (Function.update_noteq he _ _) hk
    | propagate k0 d0 hg hd0 hst hdp hnotrun =>
      by_cases he : k = d0
      · subst he
        exact Or.inr (Or.inr (Or.inr
          ⟨hnotrun, Function.update_same _ _ _, k0, hdp, hst⟩))
      · exact absurd (Function.update_noteq he _ _) hk

/-- A one-node demonstration graph used to instantiate the executor
theorems at a concrete input. -/
def readK : TaskKey := .node "read" []

def demoG : List TaskKey := [readK]

def demoStep1 : ExecState :=
  ⟨Function.update initExec.status readK .ready, initExec.resident⟩

theorem scheduler_respects_dependency_order_witness :
    (∀ k, initExec.status k = .running ∨ initExec.status k = .done →
        ∀ d ∈ k.deps, initExec.status d = .done) ∧
    (∀ k, demoStep1.status k ≠ initExec.status k →
      (initExec.status k = .pending ∧ demoStep1.status k = .ready ∧
          ∀ d ∈ k.deps, initExec.status d = .done) ∨
      (initExec.status k = .ready ∧ demoStep1.status k = .running) ∨
      (initExec.status k = .running ∧
          (demoStep1.status k = .done ∨ demoStep1.status k = .failed)) ∨
      ((initExec.status k = .pending ∨ initExec.status k = .ready) ∧
          demoStep1.status k = .failed ∧
          ∃ d ∈ k.deps, initExec.status d = .failed)) :=
  scheduler_respects_dependency_order demoG demoG (fun _ => false)
    initExec demoStep1 Relation.ReflTransGen.refl
    (ExecStep.toReady initExec readK (by simp [demoG]) rfl
      (by simp [readK, TaskKey.deps]))

/-- Modelled from the spec: the set of tasks of a request's graph whose
results have been produced at a cut of the execution. -/
def doneSet (g : List TaskKey) (s : ExecState) : Finset TaskKey :=
  (g.filter (fun t => decide (s.status t = .done))).toFinset

/-- Modelled from the spec: a dependency-closed cut of the graph — every
dependency (within the graph) of a task in the cut is also in the cut. -/
def depsClosedIn (g : List TaskKey) (D : Finset TaskKey) : Prop :=
  ∀ t ∈ D, ∀ d ∈ t.deps, d ∈ g.toFinset → d ∈ D

instance (g : List TaskKey) : DecidablePred (depsClosedIn g) := fun D =>
  decidable_of_iff (∀ t ∈ D, ∀ d ∈ t.deps, d ∈ g.toFinset → d ∈ D) Iff.rfl

/-- Modelled from the spec: the frontier of a dependency-closed cut — the
produced results that are still needed, being requested terminals or
dependencies of some not-yet-completed task of the graph. -/
def frontierOf (g ts : List TaskKey) (D : Finset TaskKey) : Finset TaskKey :=
  D.filter (fun d => d ∈ ts ∨ ∃ t ∈ g, t ∉ D ∧ d ∈ t.deps)

/-- Modelled from the spec: the graph's maximum frontier width for a
request — the largest frontier over all dependency-closed cuts of the
merged graph. -/
def maxFrontierWidth (g ts : List TaskKey) : ℕ :=
  (g.toFinset.powerset.filter (fun D => depsClosedIn g D)).sup
    (fun D => (frontierOf g ts D).card)

/-- C2: at every reachable executor state, every resident materialized
partition is Done and — unless it is a requested terminal — still has an
uncompleted dependent in the graph (so a dependency is evicted as soon as
its reference count reaches zero and it is not a requested terminal), and
consequently the number of simultaneously resident materialized
partitions never exceeds the graph's maximum frontier width for the
request. -/
theorem eviction_policy_bounds_memory (g ts : List TaskKey)
    (failing : TaskKey → Bool) (s : ExecState)
    (hreach : ExecReach g ts failing s) :
    (∀ d ∈ s.resident, s.status d = .done ∧
        (d ∉ ts → ∃ t ∈ g, d ∈ t.deps ∧ s.status t ≠ .done)) ∧
    s.resident.length ≤ maxFrontierWidth g ts := by
  obtain ⟨hdep, hfail, hnd, hres, hing⟩ := execInv_reach hreach
  constructor
  · intro d hd
    obtain ⟨hdg, hdone, hneed⟩ := hres d hd
    refine ⟨hdone, fun hnts => ?_⟩
    rcases hneed with hts | hex
    · exact absurd hts hnts
    · exact hex
  · have hDmem : doneSet g s ∈
        g.toFinset.powerset.filter (fun D => depsClosedIn g D) := by
      rw [Finset.mem_filter, Finset.mem_powerset]
      constructor
      · intro x hx
        rw [doneSet, List.mem_toFinset, List.mem_filter] at hx
        rw [List.mem_toFinset]
        exact hx.1
      · intro t ht d hd hdg
        rw [doneSet, List.mem_toFinset, List.mem_filter,
          decide_eq_true_eq] at ht
        have hddone : s.status d = .done :=
          hdep t (Or.inr (Or.inr ht.2)) d hd
        rw [doneSet, List.mem_toFinset, List.mem_filter, decide_eq_true_eq]
        rw [List.mem_toFinset] at hdg
        exact ⟨hdg, hddone⟩
    have hsub : s.resident.toFinset ⊆ frontierOf g ts (doneSet g s) := by
      intro d hd
      rw [List.mem_toFinset] at hd
      obtain ⟨hdg, hdone, hneed⟩ := hres d hd
      rw [frontierOf, Finset.mem_filter]
      have hdD : d ∈ doneSet g s := by
        rw [doneSet, List.mem_toFinset, List.mem_filter, decide_eq_true_eq]
        exact ⟨hdg, hdone⟩
      refine ⟨hdD, ?_⟩
      rcases hneed with hts | ⟨t, htg, htd, htnd⟩
      · exact Or.inl hts
      · refine Or.inr ⟨t, htg, ?_, htd⟩
        intro hc
        rw [doneSet, List.mem_toFinset, List.mem_filter,
          decide_eq_true_eq] at hc
        exact htnd hc.2
    calc s.resident.length = s.resident.toFinset.card :=
          (List.toFinset_card_of_nodup hnd).symm
      _ ≤ (frontierOf g ts (doneSet g s)).card := Finset.card_le_card hsub
      _ ≤ maxFrontierWidth g ts := by
          have hle := @Finset.le_sup ℕ (Finset TaskKey) _ _
            (g.toFinset.powerset.filter (fun D => depsClosedIn g D))
            (fun D => (frontierOf g ts D).card) (doneSet g s) hDmem
          simpa [maxFrontierWidth] using hle

theorem eviction_policy_bounds_memory_witness :
    (∀ d ∈ initExec.resident, initExec.status d = .done ∧
        (d ∉ demoG → ∃ t ∈ demoG, d ∈ t.deps ∧
          initExec.status t ≠ .done)) ∧
    initExec.resident.length ≤ maxFrontierWidth demoG demoG :=
  eviction_policy_bounds_memory demoG demoG (fun _ => false) initExec
    Relation.ReflTransGen.refl

/-- Modelled from the spec: the single-chunk semantics of the closed set
of operation kinds used by the graph builder. -/
def opSemantics (op : String) (vs : List Int) : Int :=
  if op = "sum" then vs.sum
  else if op = "max" then vs.foldl max 0
  else if op = "count" then vs.length
  else 0

mutual

/-- Modelled from the spec: the partition-table collaborator evaluated
over the content tree — literals evaluate to themselves and an operation
node applies the operation's single-chunk semantics to the values of its
arguments (None when evaluation is not defined). -/
def evalKey : TaskKey → Option Int
  | .lit n => some n
  | .node op args => (evalKeyList args).map (opSemantics op)

def evalKeyList : List TaskKey → Option (List Int)
  | [] => some []
  | a :: as => (evalKey a).bind (fun v =>
      (evalKeyList as).map (fun vs => v :: vs))

end

/-- Modelled from the spec: the value of one compute call read off a final
executor state: if some task body raised (a Failed task whose own body is
the failing one), the whole request fails reporting that originating
task's error and returns no values at all; otherwise the terminal values
are returned in request order. -/
def computeOutcome (g ts : List TaskKey) (failing : TaskKey → Bool)
    (s : ExecState) : Except TaskKey (List (Option Int)) :=
  match (g.filter (fun k => failing k &&
      decide (s.status k = .failed))).head? with
  | some k => .error k
  | none => .ok (ts.map evalKey)

theorem done_reach_done {g ts : List TaskKey} {failing : TaskKey → Bool}
    {s : ExecState} (hreach : ExecReach g ts failing s) :
    ∀ a, s.status a = .done → ∀ k ∈ a.reach, s.status k = .done := by
  obtain ⟨hdep, _, _, _, _⟩ := execInv_reach hreach
  intro a
  induction a using TaskKey.myInduction with
  | hlit n =>
    intro hdone k hk
    simp [TaskKey.reach] at hk
    subst hk
    exact hdone
  | hnode op args ih =>
    intro hdone k hk
    rw [TaskKey.reach, List.mem_cons] at hk
    rcases hk with hk | hk
    · subst hk; exact hdone
    · obtain ⟨b, hb, hkb⟩ := TaskKey.mem_reachList.mp hk
      have hbdone : s.status b = .done :=
        hdep _ (Or.inr (Or.inr hdone)) b hb
      exact ih b hb hbdone k hkb

theorem failed_dep_never_run {g ts : List TaskKey} {failing : TaskKey → Bool}
    {s : ExecState} (hreach : ExecReach g ts failing s)
    {origin : TaskKey} (horigf : failing origin = true) :
    ∀ d, origin ∈ TaskKey.reachList d.deps →
      s.status d ≠ .running ∧ s.status d ≠ .done := by
  obtain ⟨hdep, hfail, _, _, _⟩ := execInv_reach hreach
  intro d hd
  have key : (s.status d = .running ∨ s.status d = .done) → False := by
    intro hrun
    obtain ⟨b, hb, horigb⟩ := TaskKey.mem_reachList.mp hd
    have hbdone : s.status b = .done := by
      rcases hrun with h1 | h1
      · exact hdep d (Or.inr (Or.inl h1)) b hb
      · exact hdep d (Or.inr (Or.inr h1)) b hb
    have : s.status origin = .done :=
      done_reach_done hreach b hbdone origin horigb
    exact hfail origin horigf this
  exact ⟨fun h => key (Or.inl h), fun h => key (Or.inr h)⟩

/-- C4: when the body of a task fails during a compute request, in the
finished executor state every transitive dependent of the originating
task is marked Failed, at no reachable state is such a dependent ever
Running or Done (it is never run), and the outcome of the whole call is
the error of the originating task — an outcome that carries no values, so
no partial results (neither sibling partitions nor results of successful
subgraphs of the same request) are returned. -/
theorem failed_request_is_atomic (g ts : List TaskKey)
    (failing : TaskKey → Bool) (s : ExecState) (origin : TaskKey)
    (hclosed : ∀ t ∈ g, ∀ d ∈ t.deps, d ∈ g)
    (hreach : ExecReach g ts failing s)
    (hfin : ∀ s2, ¬ ExecStep g ts failing s s2)
    (horigg : origin ∈ g) (horigf : failing origin = true)
    (horigst : s.status origin = .failed)
    (huniq : ∀ k ∈ g, failing k = true → k = origin) :
    (∀ d ∈ g, origin ∈ TaskKey.reachList d.deps → s.status d = .failed) ∧
    (∀ s2, ExecReach g ts failing s2 → ∀ d,
        origin ∈ TaskKey.reachList d.deps →
        s2.status d ≠ .running ∧ s2.status d ≠ .done) ∧
    computeOutcome g ts failing s = .error origin := by
  obtain ⟨hdep, hfail, hnd, hres, hing⟩ := execInv_reach hreach
  refine ⟨?_, ?_, ?_⟩
  · intro d
    induction d using TaskKey.myInduction with
    | hlit n =>
      intro hdg hd
      simp [TaskKey.deps, TaskKey.reachList] at hd
    | hnode op args ih =>
      intro hdg hd
      obtain ⟨a, ha, horiga⟩ := TaskKey.mem_reachList.mp hd
      have hag : a ∈ g := hclosed _ hdg a ha
      have hafailed : s.status a = .failed := by
        rcases TaskKey.mem_reach_iff.mp horiga with he | hin
        · rw [← he]; exact horigst
        · exact ih a ha hag hin
      by_cases hpend : s.status (TaskKey.node op args) = .pending ∨
          s.status (TaskKey.node op args) = .ready
      · exact absurd
          (ExecStep.propagate s a (TaskKey.node op args) hag hdg hafailed ha hpend)
          (hfin _)
      · have hnr := failed_dep_never_run hreach horigf (TaskKey.node op args) hd
        cases hcur : s.status (TaskKey.node op args) with
        | pending => exact absurd (Or.inl hcur) hpend
        | ready => exact absurd (Or.inr hcur) hpend
        | running => exact absurd hcur hnr.1
        | done => exact absurd hcur hnr.2
        | failed => rfl
  · intro s2 hreach2 d hd
    exact failed_dep_never_run hreach2 horigf d hd
  · have horigmem : origin ∈ g.filter (fun k => failing k &&
        decide (s.status k = .failed)) := by
      rw [List.mem_filter]
      refine ⟨horigg, ?_⟩
      rw [horigf, horigst]
      simp
    rw [computeOutcome]
    cases hh : (g.filter (fun k => failing k &&
        decide (s.status k = .failed))).head? with
    | none =>
      rw [List.head?_eq_none_iff] at hh
      rw [hh] at horigmem
      cases horigmem
    | some k =>
      have hkmem := List.mem_of_mem_head? hh
      rw [List.mem_filter, Bool.and_eq_true, decide_eq_true_eq] at hkmem
      have : k = origin := huniq k hkmem.1 hkmem.2.1
      subst this
      rfl

/-- A concrete one-task graph whose only task's body raises, used to
instantiate the failure-semantics theorem. -/
def boomK : TaskKey := .node "boom" []

def failOnBoom : TaskKey → Bool := fun k => decide (k = boomK)

def sF1 : ExecState := ⟨Function.update initExec.status boomK .ready,
  initExec.resident⟩

def sF2 : ExecState := ⟨Function.update sF1.status boomK .running,
  sF1.resident⟩

def sFail : ExecState := ⟨Function.update sF2.status boomK .failed,
  sF2.resident⟩

theorem sFail_reachable : ExecReach [boomK] [boomK] failOnBoom sFail :=
  Relation.ReflTransGen.tail
    (Relation.ReflTransGen.tail
      (Relation.ReflTransGen.tail Relation.ReflTransGen.refl
        (ExecStep.toReady initExec boomK (by simp) rfl
          (by simp [boomK, TaskKey.deps])))
      (ExecStep.dispatch sF1 boomK (by simp) (by decide)))
    (ExecStep.fail sF2 boomK (by simp) (by decide) (by decide))

theorem sFail_finished (s2 : ExecState) :
    ¬ ExecStep [boomK] [boomK] failOnBoom sFail s2 := by
  intro h
  have hv : sFail.status boomK = TaskStatus.failed := by decide
  cases h with
  | toReady k hg hst hdeps =>
    rw [List.mem_singleton] at hg
    subst hg
    rw [hv] at hst
    cases hst
  | dispatch k hg hst =>
    rw [List.mem_singleton] at hg
    subst hg
    rw [hv] at hst
    cases hst
  | complete k hg hst hok =>
    rw [List.mem_singleton] at hg
    subst hg
    rw [hv] at hst
    cases hst
  | fail k hg hst hbad =>
    rw [List.mem_singleton] at hg
    subst hg
    rw [hv] at hst
    cases hst
  | propagate k d hg hd hst hdep hnotrun =>
    rw [List.mem_singleton] at hd
    subst hd
    simp [boomK, TaskKey.deps] at hdep

theorem failed_request_is_atomic_witness :
    (∀ d ∈ [boomK], boomK ∈ TaskKey.reachList d.deps →
        sFail.status d = .failed) ∧
    (∀ s2, ExecReach [boomK] [boomK] failOnBoom s2 → ∀ d,
        boomK ∈ TaskKey.reachList d.deps →
        s2.status d ≠ .running ∧ s2.status d ≠ .done) ∧
    computeOutcome [boomK] [boomK] failOnBoom sFail = .error boomK :=
  failed_request_is_atomic [boomK] [boomK] failOnBoom sFail boomK
    (by
      intro t ht d hd
      rw [List.mem_singleton] at ht
      subst ht
      simp [boomK, TaskKey.deps] at hd)
    sFail_reachable sFail_finished (by simp) (by decide) (by decide)
    (by
      intro k hk hf
      rw [List.mem_singleton] at hk
      exact hk)

/-- Modelled from the spec: a LazyFrame handle — the ordered partition
boundary keys (divisions) and, for reasoning about the values a compute
call returns, the per-partition data its terminal tasks produce. -/
structure LazyFrame where
  divisions : List ℚ
  parts : List (List ℚ)

/-- Modelled from the spec: `compute` materializes a LazyFrame, returning
its per-partition results concatenated in partition order. -/
def LazyFrame.compute (A : LazyFrame) : List ℚ :=
  A.parts.flatten

/-- Modelled from the spec: elementwise addition of two aligned
LazyFrames builds one new per-partition task; the new partition `i` is
the pointwise sum of partition `i` of each input. -/
def lfAdd (A B : LazyFrame) : LazyFrame :=
  ⟨A.divisions,
   List.zipWith (fun pa pb => List.zipWith (fun x y => x + y) pa pb)
     A.parts B.parts⟩

/-- Modelled from the spec: two frames are aligned when their divisions
agree and corresponding partitions hold the same number of rows. -/
def alignedLF (A B : LazyFrame) : Prop :=
  A.divisions = B.divisions ∧
  List.Forall₂ (fun pa pb => List.length pa = List.length pb) A.parts B.parts

/-- Modelled from the spec: the graph-building step of an elementwise
binary operation over the terminal keys of the two input frames — one new
task per partition pair, whose arguments are exactly the corresponding
partition keys. -/
def lfAddTasks (ka kb : List TaskKey) : List TaskKey :=
  List.zipWith (fun a b => keyOf "add" [a, b]) ka kb

theorem flatten_zipWith_zipWith {α : Type} (f : α → α → α) :
    ∀ {as bs : List (List α)},
      List.Forall₂ (fun pa pb => List.length pa = List.length pb) as bs →
      (List.zipWith (fun pa pb => List.zipWith f pa pb) as bs).flatten =
        List.zipWith f as.flatten bs.flatten := by
  intro as bs h
  induction h with
  | nil => rfl
  | cons hlen htail ih =>
    simp only [List.zipWith_cons_cons, List.flatten_cons]
    rw [ih, List.zipWith_append _ _ _ _ _ hlen]

/-- C5: for aligned LazyFrames A and B, computing A+B equals the
partition-wise (pointwise) addition of A.compute() and B.compute()
concatenated in partition order; moreover the graph-building step of the
elementwise addition creates exactly one new task per partition pair, and
the task for partition i depends exactly on the corresponding partition
keys of A and B. -/
theorem elementwise_add_partitionwise (A B : LazyFrame)
    (ka kb : List TaskKey) (h : alignedLF A B)
    (hka : ka.length = A.parts.length) (hkb : kb.length = B.parts.length) :
    (lfAdd A B).compute =
      List.zipWith (fun x y => x + y) A.compute B.compute ∧
    (lfAddTasks ka kb).length = A.parts.length ⊓ B.parts.length ∧
    (∀ i (h1 : i < ka.length) (h2 : i < kb.length)
        (h3 : i < (lfAddTasks ka kb).length),
      ((lfAddTasks ka kb).get ⟨i, h3⟩).deps =
        [ka.get ⟨i, h1⟩, kb.get ⟨i, h2⟩]) := by
  refine ⟨?_, ?_, ?_⟩
  · exact flatten_zipWith_zipWith _ h.2
  · rw [lfAddTasks, List.length_zipWith, hka, hkb]
  · intro i h1 h2 h3
    simp [lfAddTasks, keyOf, TaskKey.deps]

theorem elementwise_add_partitionwise_witness :
    (alignedLF ⟨[0, 10], [[1, 2], [3]]⟩ ⟨[0, 10], [[10, 20], [30]]⟩ ∧
      ([TaskKey.lit 1, TaskKey.lit 2] : List TaskKey).length =
        ([[1, 2], [3]] : List (List ℚ)).length) ∧
    ((lfAdd ⟨[0, 10], [[1, 2], [3]]⟩ ⟨[0, 10], [[10, 20], [30]]⟩).compute =
      List.zipWith (fun x y => x + y)
        (LazyFrame.compute ⟨[0, 10], [[1, 2], [3]]⟩)
        (LazyFrame.compute ⟨[0, 10], [[10, 20], [30]]⟩) ∧
    (lfAddTasks [TaskKey.lit 1, TaskKey.lit 2]
        [TaskKey.lit 3, TaskKey.lit 4]).length =
      ([[1, 2], [3]] : List (List ℚ)).length ⊓
        ([[10, 20], [30]] : List (List ℚ)).length ∧
    (∀ i (h1 : i < ([TaskKey.lit 1, TaskKey.lit 2] : List TaskKey).length)
        (h2 : i < ([TaskKey.lit 3, TaskKey.lit 4] : List TaskKey).length)
        (h3 : i < (lfAddTasks [TaskKey.lit 1, TaskKey.lit 2]
          [TaskKey.lit 3, TaskKey.lit 4]).length),
      ((lfAddTasks [TaskKey.lit 1, TaskKey.lit 2]
          [TaskKey.lit 3, TaskKey.lit 4]).get ⟨i, h3⟩).deps =
        [([TaskKey.lit 1, TaskKey.lit 2] : List TaskKey).get ⟨i, h1⟩,
         ([TaskKey.lit 3, TaskKey.lit 4] : List TaskKey).get ⟨i, h2⟩])) :=
  ⟨⟨⟨rfl, by
      refine List.Forall₂.cons rfl (List.Forall₂.cons rfl List.Forall₂.nil)⟩,
    rfl⟩,
   elementwise_add_partitionwise ⟨[0, 10], [[1, 2], [3]]⟩
     ⟨[0, 10], [[10, 20], [30]]⟩
     [TaskKey.lit 1, TaskKey.lit 2] [TaskKey.lit 3, TaskKey.lit 4]
     ⟨rfl, by
        refine List.Forall₂.cons rfl (List.Forall₂.cons rfl List.Forall₂.nil)⟩
     rfl rfl⟩

/-- Modelled from the spec: phase 1 of the reduction protocol for `sum` —
one independent per-partition sum task per partition. -/
def phase1Sums (parts : List (List ℚ)) : List ℚ :=
  parts.map List.sum

/-- Modelled from the spec: phase 1 of the reduction protocol for
`count` — one independent per-partition count task per partition. -/
def phase1Counts (parts : List (List ℚ)) : List ℚ :=
  parts.map (fun p => (p.length : ℚ))

/-- Modelled from the spec: the phase-2 combine task for `sum`. -/
def sumTwoPhase (parts : List (List ℚ)) : ℚ :=
  (phase1Sums parts).sum

/-- Modelled from the spec: the phase-2 combine task for `count`. -/
def countTwoPhase (parts : List (List ℚ)) : ℚ :=
  (phase1Counts parts).sum

/-- Modelled from the spec: `mean` expressed as sum divided by count over
the same phase-1 partition scan. -/
def meanTwoPhase (parts : List (List ℚ)) : ℚ :=
  sumTwoPhase parts / countTwoPhase parts

/-- Modelled from the spec: the partition-count-independent single-chunk
mean over the whole dataset. -/
def meanSingleChunk (parts : List (List ℚ)) : ℚ :=
  parts.flatten.sum / (parts.flatten.length : ℚ)

theorem sumTwoPhase_eq_flatten (parts : List (List ℚ)) :
    sumTwoPhase parts = parts.flatten.sum := by
  rw [sumTwoPhase, phase1Sums, List.sum_flatten]

theorem countTwoPhase_eq_flatten (parts : List (List ℚ)) :
    countTwoPhase parts = (parts.flatten.length : ℚ) := by
  rw [countTwoPhase, phase1Counts]
  induction parts with
  | nil => simp
  | cons p ps ih => simp [ih]

/-- C7: for every dataset split across partitions, the mean computed via
the two-phase reduction protocol equals the reduction of sum()/count()
computed directly, equals the single-chunk computation over the whole
dataset, and is therefore independent of the partition count: any two
partitionings of the same underlying data yield the same mean. -/
theorem mean_two_phase_correct (parts parts2 : List (List ℚ))
    (hsame : parts.flatten = parts2.flatten) :
    meanTwoPhase parts = sumTwoPhase parts / countTwoPhase parts ∧
    meanTwoPhase parts = meanSingleChunk parts ∧
    meanTwoPhase parts = meanTwoPhase parts2 := by
  have key : ∀ ps : List (List ℚ), meanTwoPhase ps = meanSingleChunk ps := by
    intro ps
    rw [meanTwoPhase, meanSingleChunk, sumTwoPhase_eq_flatten,
      countTwoPhase_eq_flatten]
  refine ⟨rfl, key parts, ?_⟩
  rw [key parts, key parts2, meanSingleChunk, meanSingleChunk, hsame]

theorem mean_two_phase_correct_witness :
    ([[1, 2, 3], [4, 5], [6]] : List (List ℚ)).flatten =
      ([[1], [2, 3, 4], [5, 6]] : List (List ℚ)).flatten ∧
    (meanTwoPhase [[1, 2, 3], [4, 5], [6]] =
      sumTwoPhase [[1, 2, 3], [4, 5], [6]] /
        countTwoPhase [[1, 2, 3], [4, 5], [6]] ∧
    meanTwoPhase [[1, 2, 3], [4, 5], [6]] =
      meanSingleChunk [[1, 2, 3], [4, 5], [6]] ∧
    meanTwoPhase [[1, 2, 3], [4, 5], [6]] =
      meanTwoPhase [[1], [2, 3, 4], [5, 6]]) :=
  ⟨rfl, mean_two_phase_correct [[1, 2, 3], [4, 5], [6]]
    [[1], [2, 3, 4], [5, 6]] rfl⟩

/-- Modelled from the spec: the caller-facing lazy handle of one or more
terminal keys over a shared graph store; a compute call on it returns the
terminal values and hands the handle back untouched — `compute` is the
only suspension-breaking call and performs no graph mutation. -/
structure LazyHandle where
  store : GraphStore
  terminals : List TaskKey

/-- Modelled from the spec: computing a handle evaluates its terminal
tasks and returns the values together with the (unmutated) handle. -/
def computeCall (f : LazyHandle) : List (Option Int) × LazyHandle :=
  (f.terminals.map evalKey, f)

/-- C6: calling compute twice on the same LazyFrame without intervening
mutation returns equal values both times, and neither call mutates the
LazyFrame's graph store or terminal set. -/
theorem compute_idempotent_no_mutation (f : LazyHandle) :
    (computeCall ((computeCall f).2)).1 = (computeCall f).1 ∧
    ((computeCall f).2).store = f.store ∧
    ((computeCall ((computeCall f).2)).2).store = f.store ∧
    ((computeCall f).2).terminals = f.terminals := by
  exact ⟨rfl, rfl, rfl, rfl⟩

theorem zipWith_map_same {α β γ δ : Type} (h : β → γ → δ) (f : α → β)
    (g : α → γ) : ∀ l : List α,
      List.zipWith h (l.map f) (l.map g) = l.map (fun x => h (f x) (g x))
  | [] => rfl
  | x :: xs => by
    simp only [List.map_cons, List.zipWith_cons_cons]
    rw [zipWith_map_same h f g xs]

/-- A flight record of the notebook's dataset restricted to the two
columns the departure-timestamp pipeline uses: the Date column (a
timestamp, in minutes) and the CRSDepTime column (an integer of the form
HHMM, as read by read_csv). -/
structure FlightRow where
  date : Int
  crsDepTime : Nat

/-- From the source notebook: the per-row effect of
pd.to_timedelta(t // 100, unit equal to hours), in minutes. -/
def hoursTimedelta (t : Nat) : Int :=
  60 * ((t / 100 : Nat) : Int)

/-- From the source notebook: the per-row effect of
pd.to_timedelta(t % 100, unit equal to minutes), in minutes. -/
def minutesTimedelta (t : Nat) : Int :=
  ((t % 100 : Nat) : Int)

/-- Modelled from the spec: map_partitions applies the given function to
every partition of a partitioned column. -/
def mapPartitionsCol {α β : Type} (f : α → β) (c : List (List α)) :
    List (List β) :=
  c.map (List.map f)

/-- Modelled from the spec: elementwise addition of two aligned
partitioned columns, one task per partition. -/
def colAdd (a b : List (List Int)) : List (List Int) :=
  List.zipWith (fun pa pb => List.zipWith (fun x y => x + y) pa pb) a b

/-- From the source notebook (lazy pipeline): hours is CRSDepTime
integer-divided by 100, converted to a timedelta with map_partitions;
minutes is CRSDepTime modulo 100, converted likewise; the departure
timestamp is the Date column plus both timedeltas, built lazily over the
partitioned frame. -/
def lazyDepartureTs (parts : List (List FlightRow)) : List (List Int) :=
  let hours : List (List Nat) :=
    mapPartitionsCol (fun r => r.crsDepTime / 100) parts
  let hoursTd : List (List Int) :=
    mapPartitionsCol (fun h : Nat => 60 * (h : Int)) hours
  let minutes : List (List Nat) :=
    mapPartitionsCol (fun r => r.crsDepTime % 100) parts
  let minutesTd : List (List Int) :=
    mapPartitionsCol (fun m : Nat => (m : Int)) minutes
  let date : List (List Int) := mapPartitionsCol (fun r => r.date) parts
  colAdd (colAdd date hoursTd) minutesTd

/-- From the source notebook (eager pandas computation): take the first
10 rows of the CRSDepTime and Date columns, apply pd.to_timedelta to the
hour and minute parts directly and add both results to the dates. -/
def eagerDepartureTs (parts : List (List FlightRow)) : List Int :=
  let crsDepTime := (parts.flatten.map (fun r => r.crsDepTime)).take 10
  let date := (parts.flatten.map (fun r => r.date)).take 10
  let hoursTd := crsDepTime.map hoursTimedelta
  let minutesTd := crsDepTime.map minutesTimedelta
  List.zipWith (fun x y => x + y)
    (List.zipWith (fun x y => x + y) date hoursTd) minutesTd

/-- C10: for the first 10 rows of the dataset, the lazily built
departure-timestamp pipeline (hours and minutes split off CRSDepTime,
converted to timedeltas via map_partitions, added to the Date column)
computes exactly the values of the eager pandas computation on the first
10 rows of each column. -/
theorem departure_timestamp_refines_pandas (parts : List (List FlightRow)) :
    ((lazyDepartureTs parts).flatten).take 10 = eagerDepartureTs parts := by
  have hmapped : lazyDepartureTs parts = parts.map (List.map (fun r =>
      r.date + hoursTimedelta r.crsDepTime +
        minutesTimedelta r.crsDepTime)) := by
    simp [lazyDepartureTs, mapPartitionsCol, colAdd, List.map_map,
      zipWith_map_same, Function.comp, hoursTimedelta, minutesTimedelta]
  rw [hmapped, ← List.map_flatten, ← List.map_take]
  rw [eagerDepartureTs]
  simp only [← List.map_take, List.map_map]
  rw [zipWith_map_same, zipWith_map_same]
  simp [Function.comp, hoursTimedelta, minutesTimedelta]

/-- Modelled from the spec: one partition of a frame with known
divisions — its boundary keys [lo, hi), whether it is the final partition
(closed at hi on both ends), and its rows' keys. -/
structure Partn where
  lo : Int
  hi : Int
  closed : Bool
  rows : List Int
deriving DecidableEq

/-- Modelled from the spec: whether a partition's division range
intersects the selection range [a, b]. -/
def intersects (a b : Int) (p : Partn) : Bool :=
  decide (p.lo ≤ b) &&
    (if p.closed then decide (a ≤ p.hi) else decide (a < p.hi))

/-- Modelled from the spec: the per-partition bounds-filter task appended
on a boundary partition of a range selection. -/
def boundsFilter (a b : Int) (p : Partn) : Partn :=
  { p with rows := p.rows.filter (fun r => decide (a ≤ r) && decide (r ≤ b)) }

/-- Modelled from the spec: append the bounds-filter task only on the
last partition of the selection. -/
def filterLast (a b : Int) : List Partn → List Partn
  | [] => []
  | [p] => [boundsFilter a b p]
  | p :: q :: ps => p :: filterLast a b (q :: ps)

/-- Modelled from the spec: after pruning to the partitions intersecting
the range, the bounds filter is appended on the boundary partitions: the
first and the last of the selection. -/
def locAssemble (a b : Int) : List Partn → List Partn
  | [] => []
  | p :: rest => boundsFilter a b p :: filterLast a b rest

/-- Modelled from the spec: range selection .loc[a:b] — select only the
partitions whose division range intersects [a, b] and append a bounds
filter only on the boundary partitions. -/
def locRange (a b : Int) (ps : List Partn) : List Partn :=
  locAssemble a b (ps.filter (intersects a b))

theorem pair_sublist_mem_dropLast {α : Type} :
    ∀ {l : List α} {x y : α}, List.Sublist [x, y] l → x ∈ l.dropLast := by
  intro l
  induction l with
  | nil => intro x y h; cases h
  | cons z rest ih =>
    intro x y h
    cases h with
    | cons a h1 =>
      have hx := ih h1
      have hne : rest ≠ [] := by
        intro hc
        subst hc
        cases h1
      rw [List.dropLast_cons_of_ne_nil hne]
      exact List.mem_cons_of_mem _ hx
    | cons₂ a h1 =>
      have hne : rest ≠ [] := by
        intro hc
        subst hc
        cases h1
      rw [List.dropLast_cons_of_ne_nil hne]
      exact List.mem_cons_self _ _

theorem exists_pair_sublist {α : Type} :
    ∀ {l : List α} {x : α}, x ∈ l.dropLast → ∃ y, List.Sublist [x, y] l := by
  intro l
  induction l with
  | nil => intro x hx; cases hx
  | cons z rest ih =>
    intro x hx
    cases rest with
    | nil => cases hx
    | cons w ws =>
      rw [List.dropLast_cons_of_ne_nil (by simp)] at hx
      rcases List.mem_cons.mp hx with he | hx2
      · subst he
        exact ⟨w, List.Sublist.cons₂ _ (List.Sublist.cons₂ _
          (List.nil_sublist ws))⟩
      · obtain ⟨y, hy⟩ := ih hx2
        exact ⟨y, hy.cons z⟩

theorem filterLast_mem {a b : Int} :
    ∀ {l : List Partn} {q}, q ∈ filterLast a b l →
      (q ∈ l.dropLast) ∨ ∃ p ∈ l, q = boundsFilter a b p := by
  intro l
  induction l with
  | nil => intro q h; cases h
  | cons p rest ih =>
    cases rest with
    | nil =>
      intro q h
      rw [show filterLast a b [p] = [boundsFilter a b p] from rfl] at h
      rcases List.mem_singleton.mp h with he
      exact Or.inr ⟨p, List.mem_singleton_self p, he⟩
    | cons w ws =>
      intro q h
      rw [show filterLast a b (p :: w :: ws) = p :: filterLast a b (w :: ws)
        from rfl] at h
      rcases List.mem_cons.mp h with he | h2
      · subst he
        left
        rw [List.dropLast_cons_of_ne_nil (by simp)]
        exact List.mem_cons_self _ _
      · rcases ih h2 with h3 | ⟨p2, hp2, he2⟩
        · left
          rw [List.dropLast_cons_of_ne_nil (by simp)]
          exact List.mem_cons_of_mem _ h3
        · exact Or.inr ⟨p2, List.mem_cons_of_mem _ hp2, he2⟩

theorem filterLast_ne_nil {a b : Int} (l : List Partn) (h : l ≠ []) :
    filterLast a b l ≠ [] := by
  cases l with
  | nil => exact absurd rfl h
  | cons p rest =>
    cases rest with
    | nil => simp [filterLast]
    | cons w ws => simp [filterLast]

theorem filterLast_dropLast {a b : Int} :
    ∀ (l : List Partn), (filterLast a b l).dropLast = l.dropLast := by
  intro l
  induction l with
  | nil => rfl
  | cons p rest ih =>
    cases rest with
    | nil => rfl
    | cons w ws =>
      rw [show filterLast a b (p :: w :: ws) = p :: filterLast a b (w :: ws)
        from rfl]
      rw [List.dropLast_cons_of_ne_nil (filterLast_ne_nil _ (by simp))]
      rw [ih]
      rw [show (p :: w :: ws).dropLast = p :: (w :: ws).dropLast from
        List.dropLast_cons_of_ne_nil (by simp)]

/-- C8: for a frame with known monotone divisions whose partitions respect
the divisions invariant (partition i holds only keys in [divisions i,
divisions i+1), the last partition closed on both ends), every row of
every partition produced by the range selection .loc[a:b] satisfies
a ≤ key ≤ b, with key < b on every non-final result partition (closed at
b only for the final one); only partitions whose division range
intersects [a, b] are selected (each result partition is an intersecting
original partition, possibly bounds-filtered); and the bounds filter is
appended only on the boundary partitions — every interior result
partition is an original partition passed through untouched. -/
theorem loc_range_divisions_invariant (a b : Int) (ps : List Partn)
    (hchain : ps.Pairwise (fun p q => p.hi ≤ q.lo))
    (hrows : ∀ p ∈ ps, ∀ r ∈ p.rows, p.lo ≤ r ∧
        (if p.closed then r ≤ p.hi else r < p.hi))
    (hclosed : ∀ p ∈ ps.dropLast, p.closed = false) :
    (∀ q ∈ locRange a b ps, ∀ r ∈ q.rows, a ≤ r ∧ r ≤ b) ∧
    (∀ q ∈ (locRange a b ps).dropLast, ∀ r ∈ q.rows, r < b) ∧
    (∀ q ∈ locRange a b ps, ∃ p ∈ ps, intersects a b p = true ∧
        (q = p ∨ q = boundsFilter a b p)) ∧
    (∀ q ∈ ((locRange a b ps).drop 1).dropLast, q ∈ ps) := by
  rcases hsel : ps.filter (intersects a b) with _ | ⟨p1, rest⟩
  · rw [locRange, hsel]
    simp [locAssemble]
  · have hsub : (p1 :: rest).Sublist ps := hsel ▸ List.filter_sublist ps
    have hmemfil : ∀ q ∈ p1 :: rest, q ∈ ps ∧ intersects a b q = true := by
      intro q hq
      have hmf : q ∈ ps.filter (intersects a b) := hsel ▸ hq
      exact ⟨List.mem_of_mem_filter hmf, List.of_mem_filter hmf⟩
    have hp1 := hmemfil p1 (List.mem_cons_self _ _)
    have hlob : ∀ q, intersects a b q = true → q.lo ≤ b := by
      intro q hq
      rw [intersects, Bool.and_eq_true, decide_eq_true_eq] at hq
      exact hq.1
    have hpairps : ∀ q ∈ rest, [p1, q].Sublist ps := by
      intro q hq
      exact (List.Sublist.cons₂ _ (List.singleton_sublist.mpr hq)).trans hsub
    have hrel : ∀ q ∈ rest, p1.hi ≤ q.lo := by
      intro q hq
      have hpw := List.Pairwise.sublist (hpairps q hq) hchain
      exact (List.pairwise_cons.mp hpw).1 q (List.mem_singleton_self q)
    have hp1open : rest ≠ [] → p1.closed = false := by
      intro hne
      cases rest with
      | nil => exact absurd rfl hne
      | cons w ws =>
        exact hclosed p1 (pair_sublist_mem_dropLast (hpairps w (by simp)))
    have hahi : rest ≠ [] → a < p1.hi := by
      intro hne
      have h2 := hp1.2
      rw [intersects, Bool.and_eq_true, hp1open hne] at h2
      simpa using h2.2
    have hintA : ∀ q ∈ rest, ∀ r ∈ q.rows, a ≤ r := by
      intro q hq r hr
      have hqps := (hmemfil q (List.mem_cons_of_mem _ hq)).1
      have hlo := (hrows q hqps r hr).1
      have hne : rest ≠ [] := by
        intro hc
        subst hc
        cases hq
      have ha1 := hahi hne
      have ha2 := hrel q hq
      omega
    have hintB : ∀ q ∈ rest.dropLast, ∀ r ∈ q.rows, r < b := by
      intro q hq r hr
      obtain ⟨q2, hqq2⟩ := exists_pair_sublist hq
      have hqq2ps : [q, q2].Sublist ps := (hqq2.cons p1).trans hsub
      have hqopen : q.closed = false :=
        hclosed q (pair_sublist_mem_dropLast hqq2ps)
      have hqrest : q ∈ rest := List.dropLast_subset _ hq
      have hqmem := (hmemfil q (List.mem_cons_of_mem _ hqrest)).1
      have hrow := (hrows q hqmem r hr).2
      rw [hqopen] at hrow
      simp at hrow
      have hrel2 : q.hi ≤ q2.lo := by
        have hpw := List.Pairwise.sublist hqq2ps hchain
        exact (List.pairwise_cons.mp hpw).1 q2 (List.mem_singleton_self q2)
      have hq2rest : q2 ∈ rest := hqq2.subset (by simp)
      have hq2b : q2.lo ≤ b :=
        hlob q2 (hmemfil q2 (List.mem_cons_of_mem _ hq2rest)).2
      omega
    have hbfrows : ∀ p, ∀ r ∈ (boundsFilter a b p).rows, a ≤ r ∧ r ≤ b := by
      intro p r hr
      rw [boundsFilter] at hr
      simp only [List.mem_filter, Bool.and_eq_true, decide_eq_true_eq] at hr
      exact hr.2
    have hp1lt : rest ≠ [] → ∀ r ∈ p1.rows, r < b := by
      intro hne r hr
      cases rest with
      | nil => exact absurd rfl hne
      | cons w ws =>
        have hrow := (hrows p1 hp1.1 r hr).2
        rw [hp1open hne] at hrow
        simp at hrow
        have h2 := hrel w (by simp)
        have h3 := hlob w (hmemfil w (by simp)).2
        omega
    refine ⟨?_, ?_, ?_, ?_⟩
    · intro q hq r hr
      rw [locRange, hsel] at hq
      rw [show locAssemble a b (p1 :: rest) =
        boundsFilter a b p1 :: filterLast a b rest from rfl] at hq
      rcases List.mem_cons.mp hq with he | h2
      · subst he
        exact hbfrows p1 r hr
      · rcases filterLast_mem h2 with h3 | ⟨p2, hp2, he2⟩
        · exact ⟨hintA q (List.dropLast_subset _ h3) r hr,
            le_of_lt (hintB q h3 r hr)⟩
        · subst he2
          exact hbfrows p2 r hr
    · intro q hq r hr
      rw [locRange, hsel] at hq
      rw [show locAssemble a b (p1 :: rest) =
        boundsFilter a b p1 :: filterLast a b rest from rfl] at hq
      rcases heq : rest with _ | ⟨w, ws⟩
      · subst heq
        simp [filterLast] at hq
      · subst heq
        rw [List.dropLast_cons_of_ne_nil (filterLast_ne_nil _ (by simp))] at hq
        rcases List.mem_cons.mp hq with he | h2
        · subst he
          have hr2 : r ∈ p1.rows := by
            rw [boundsFilter] at hr
            exact List.mem_of_mem_filter hr
          exact hp1lt (by simp) r hr2
        · rw [filterLast_dropLast] at h2
          exact hintB q h2 r hr
    · intro q hq
      rw [locRange, hsel] at hq
      rw [show locAssemble a b (p1 :: rest) =
        boundsFilter a b p1 :: filterLast a b rest from rfl] at hq
      rcases List.mem_cons.mp hq with he | h2
      · exact ⟨p1, hp1.1, hp1.2, Or.inr he⟩
      · rcases filterLast_mem h2 with h3 | ⟨p2, hp2, he2⟩
        · have hqrest := List.dropLast_subset _ h3
          have hqf := hmemfil q (List.mem_cons_of_mem _ hqrest)
          exact ⟨q, hqf.1, hqf.2, Or.inl rfl⟩
        · have hpf := hmemfil p2 (List.mem_cons_of_mem _ hp2)
          exact ⟨p2, hpf.1, hpf.2, Or.inr he2⟩
    · intro q hq
      rw [locRange, hsel] at hq
      rw [show locAssemble a b (p1 :: rest) =
        boundsFilter a b p1 :: filterLast a b rest from rfl] at hq
      rw [show (boundsFilter a b p1 :: filterLast a b rest).drop 1 =
        filterLast a b rest from rfl] at hq
      rw [filterLast_dropLast] at hq
      exact (hmemfil q (List.mem_cons_of_mem _ (List.dropLast_subset _ hq))).1

/-- A concrete three-partition frame over divisions 0, 10, 20, 30 used to
instantiate the range-selection theorem. -/
def ps3 : List Partn :=
  [⟨0, 10, false, [0, 5]⟩, ⟨10, 20, false, [10, 15]⟩,
   ⟨20, 30, true, [20, 30]⟩]

theorem loc_range_divisions_invariant_witness :
    (ps3.Pairwise (fun p q => p.hi ≤ q.lo) ∧
      (∀ p ∈ ps3, ∀ r ∈ p.rows, p.lo ≤ r ∧
          (if p.closed then r ≤ p.hi else r < p.hi)) ∧
      (∀ p ∈ ps3.dropLast, p.closed = false)) ∧
    ((∀ q ∈ locRange 5 25 ps3, ∀ r ∈ q.rows, 5 ≤ r ∧ r ≤ 25) ∧
    (∀ q ∈ (locRange 5 25 ps3).dropLast, ∀ r ∈ q.rows, r < 25) ∧
    (∀ q ∈ locRange 5 25 ps3, ∃ p ∈ ps3, intersects 5 25 p = true ∧
        (q = p ∨ q = boundsFilter 5 25 p)) ∧
    (∀ q ∈ ((locRange 5 25 ps3).drop 1).dropLast, q ∈ ps3)) :=
  ⟨⟨by decide, by decide, by decide⟩,
   loc_range_divisions_invariant 5 25 ps3 (by decide) (by decide) (by decide)⟩
